import Mathlib

/-!
Verification of the janssonex wrapper (src/janssonex.hpp) against its
specification.  The wrapper is a thin C++ layer over the jansson C library;
the jansson functions themselves are only declared here (via jansson.h), so
their semantics are modelled from the spec where a claim depends on them.
Machine pointers become `Option`, the reference-counted node becomes an
explicit state, and the JSON document tree becomes the inductive `JVal`.
-/

namespace Janssonex

/-- A JSON number payload in exact decimal form, `mant * 10 ^ expo`.
Modelled from the spec: the source library stores reals as C doubles and
serializes them with round-trip precision; we model the payload exactly as a
decimal mantissa/exponent pair, which that round-trip-precision text form
preserves. -/
structure JNum where
  mant : Int
  expo : Int
deriving Repr

/-- The JSON document node.  Modelled from the spec (section 3, "JsonValue"):
a tagged variant over {Null, Boolean, Integer, Real, String, Array, Object},
with arrays as ordered child lists and objects as insertion-ordered key/value
lists (the spec: "mapping from string key (unique) to a reference to a child
JsonValue node; insertion order preserved"). -/
inductive JVal where
  | null
  | boolean (b : Bool)
  | integer (n : Int)
  | real (q : JNum)
  | str (s : String)
  | arr (items : List JVal)
  | obj (entries : List (String × JVal))

/-- The discriminant tag of a node (spec section 3). -/
inductive JTag where
  | nullTag | boolTag | intTag | realTag | strTag | arrTag | objTag
deriving Repr, DecidableEq

def tagOf : JVal → JTag
  | .null => .nullTag
  | .boolean _ => .boolTag
  | .integer _ => .intTag
  | .real _ => .realTag
  | .str _ => .strTag
  | .arr _ => .arrTag
  | .obj _ => .objTag

/-! ## Object payload operations (modelled from the spec)

jansson's object is a hash table that preserves insertion order; we model the
payload as the insertion-ordered association list the spec describes. -/

/-- Whether `k` occurs among the keys of the entry list. -/
def hasKeyB : List (String × JVal) → String → Bool
  | [], _ => false
  | (k', _) :: ms, k => k' == k || hasKeyB ms k

/-- First value stored under `k`, if any. -/
def lookupKey : List (String × JVal) → String → Option JVal
  | [], _ => none
  | (k', v') :: ms, k => if k' == k then some v' else lookupKey ms k

/-- The keys of the entry list, in insertion order. -/
def keysOf (ms : List (String × JVal)) : List String := ms.map Prod.fst

/-- Modelled from the spec: `json_object_set` stores `v` under `k`, replacing
the value in place when the key is present (its order position unchanged) and
appending a new entry at the end when it is absent. -/
def objSet : List (String × JVal) → String → JVal → List (String × JVal)
  | [], k, v => [(k, v)]
  | (k', v') :: ms, k, v =>
      if k' == k then (k', v) :: ms else (k', v') :: objSet ms k v

/-- Modelled from the spec: `json_object_get` looks a key up in an object
node and returns NULL (here `none`) on a non-object node or an absent key. -/
def json_object_get : JVal → String → Option JVal
  | .obj ms, k => lookupKey ms k
  | _, _ => none

/-- Modelled from the spec: the `json_is_null` macro checks that the pointer
is non-NULL and that the node's tag is Null. -/
def json_is_null : Option JVal → Bool
  | some .null => true
  | _ => false

/-! ## Array payload operations (modelled from the spec)

Spec 4.3: all index-based accessors fail when `index >= size` (Get/Remove/Set),
except Insert, which additionally accepts `index == size`.  A failed mutation
is modelled as `none`: the bound is checked before any structural change. -/

/-- Modelled from the spec: `json_array_get` returns NULL (`none`) on a
non-array node or an out-of-range index. -/
def json_array_get : JVal → Nat → Option JVal
  | .arr es, i => es.get? i
  | _, _ => none

/-- Modelled from the spec: `json_array_set` replaces the element at `i`;
it fails (returns -1, here `none`) unless `i < size`, leaving the array
unchanged. -/
def json_array_set : JVal → Nat → JVal → Option JVal
  | .arr es, i, v => if i < es.length then some (.arr (es.set i v)) else none
  | _, _, _ => none

/-- Modelled from the spec: `json_array_remove` deletes the element at `i`,
shifting later elements down; it fails unless `i < size`. -/
def json_array_remove : JVal → Nat → Option JVal
  | .arr es, i => if i < es.length then some (.arr (es.eraseIdx i)) else none
  | _, _ => none

/-- Modelled from the spec: `json_array_insert` inserts at `i`, shifting the
elements at and after `i` toward the end; `i` may equal the size (append). -/
def json_array_insert : JVal → Nat → JVal → Option JVal
  | .arr es, i, v => if i ≤ es.length then some (.arr (es.insertIdx i v)) else none
  | _, _, _ => none

/-! ## The wrapper's IsNull accessors (from src/janssonex.hpp) -/

/-- `JSON::IsNull(const char *key)` from the source:
`json_is_null(json_object_get(this, key))`. -/
def IsNullKey (j : JVal) (k : String) : Bool := json_is_null (json_object_get j k)

/-- `JSON::IsNull(size_t index)` from the source:
`json_is_null(json_array_get(this, index))`. -/
def IsNullIdx (j : JVal) (i : Nat) : Bool := json_is_null (json_array_get j i)

/-! ## Scalar accessors behind `JSON::GetValue<T>` (modelled from the spec) -/

/-- Modelled from the spec: `json_boolean_value` is the `json_is_true` macro,
so it yields `true` exactly on a Boolean node holding `true`. -/
def json_boolean_value : JVal → Bool
  | .boolean b => b
  | _ => false

/-- Modelled from the spec: `json_integer_value` returns the integer payload,
or 0 on any node that is not an Integer. -/
def json_integer_value : JVal → Int
  | .integer n => n
  | _ => 0

/-- Modelled from the spec: `json_number_value` returns the real payload of a
Real node, the integer payload converted to a real on an Integer node (the
library's permissive numeric coercion), and 0.0 otherwise. -/
def json_number_value : JVal → JNum
  | .real q => q
  | .integer n => ⟨n, 0⟩
  | _ => ⟨0, 0⟩

/-- Modelled from the spec: `json_string_value` returns the text payload, or
NULL (`none`) on any node that is not a String. -/
def json_string_value : JVal → Option String
  | .str s => some s
  | _ => none

/-- The exact rational a `JNum` denotes. -/
def JNum.toRat (q : JNum) : Rat := (q.mant : Rat) * (10 : Rat) ^ q.expo

/-! ## The object-key iterator (from src/janssonex.hpp, class JSONObjectKeys)

`json_object_iter` on a non-object (or an empty/exhausted object) yields the
NULL iterator; we model the cursor as the list of entries still to visit, with
`[]` standing for the NULL/exhausted cursor. -/

structure IterSt where
  rem : List (String × JVal)

/-- The constructor `JSONObjectKeys(JSON *json)`: `json_object_iter(json)`,
which is the first-entry cursor of an object and NULL otherwise. -/
def mkIter : JVal → IterSt
  | .obj ms => ⟨ms⟩
  | _ => ⟨[]⟩

/-- `JSONObjectKeys::GetKeyValue`: writes the current key (NULL when the
cursor is NULL or exhausted, upon which it returns false), writes the current
value, advances the cursor once, and returns true.  The result models
(returned bool, *key, *value, new cursor). -/
def GetKeyValue : IterSt → Bool × Option String × Option JVal × IterSt
  | ⟨[]⟩ => (false, none, none, ⟨[]⟩)
  | ⟨(k, v) :: rest⟩ => (true, some k, some v, ⟨rest⟩)

/-- Drain up to `fuel` pairs through `GetKeyValue`, collecting keys. -/
def drainKeys (fuel : Nat) (st : IterSt) : List String :=
  match fuel with
  | 0 => []
  | f + 1 =>
      match GetKeyValue st with
      | (true, some k, _, st') => k :: drainKeys f st'
      | _ => []

/-! ## Object update (JSON::Update from src/janssonex.hpp)

The seven jansson merge functions are modelled from the spec; the `_new`
variants differ from the plain ones only in reference counting, so their
effect on the target's contents is the same.  The dispatch below is the
wrapper's own if-chain, with the enum's underlying `int` as `Int`. -/

/-- Modelled from the spec: `json_object_update` stores every key of `other`
into the target (existing keys overwritten in place, new keys appended). -/
def json_object_update (t s : List (String × JVal)) : List (String × JVal) :=
  s.foldl (fun acc kv => objSet acc kv.1 kv.2) t

/-- Modelled from the spec: `json_object_update_existing` overwrites only the
keys already present in the target; absent keys are not added. -/
def json_object_update_existing (t s : List (String × JVal)) : List (String × JVal) :=
  s.foldl (fun acc kv => if hasKeyB acc kv.1 then objSet acc kv.1 kv.2 else acc) t

/-- Modelled from the spec: `json_object_update_missing` adds only the keys
not already present in the target; existing keys are left alone. -/
def json_object_update_missing (t s : List (String × JVal)) : List (String × JVal) :=
  s.foldl (fun acc kv => if hasKeyB acc kv.1 then acc else objSet acc kv.1 kv.2) t

mutual

/-- Modelled from the spec: `json_object_update_recursive` merges key by key,
recursing when both sides hold objects under the key and replacing otherwise. -/
def updateRecEntries (t : List (String × JVal)) :
    List (String × JVal) → List (String × JVal)
  | [] => t
  | (k, v) :: rest => updateRecEntries (mergeOneKey t k v) rest

/-- One key of the recursive merge. -/
def mergeOneKey (t : List (String × JVal)) (k : String) (v : JVal) :
    List (String × JVal) :=
  match lookupKey t k, v with
  | some (.obj inner), .obj vs => objSet t k (.obj (updateRecEntries inner vs))
  | _, _ => objSet t k v

end

def json_object_update_recursive (t s : List (String × JVal)) :
    List (String × JVal) :=
  updateRecEntries t s

/-- `JSON::Update(other, Type)` from the source: an if-chain over the
`ObjectUpdateType` values OU_NONE=0 .. OU_RECURSIVE=6, falling through to
`return false` on any other value.  The jansson calls return 0 here because
both arguments are objects by construction; the pair is (returned bool, new
target contents). -/
def Update (this other : List (String × JVal)) (ty : Int) :
    Bool × List (String × JVal) :=
  if ty = 0 then (true, json_object_update this other)
  else if ty = 1 then (true, json_object_update_existing this other)
  else if ty = 2 then (true, json_object_update_missing this other)
  else if ty = 3 then (true, json_object_update this other)
  else if ty = 4 then (true, json_object_update_existing this other)
  else if ty = 5 then (true, json_object_update_missing this other)
  else if ty = 6 then (true, json_object_update_recursive this other)
  else (false, this)

/-! ## Reference counting (modelled from the spec)

Spec: a node is created with count 1; `Retain` (json_incref) increments the
count and returns the same handle; `Release` (json_decref) decrements, and the
node is destroyed exactly when the count drops to zero. -/

inductive RcState where
  | live (refcount : Nat)
  | destroyed
deriving Repr, DecidableEq

/-- One increment of the count (no effect once destroyed: the handle is dead). -/
def bumpRc : RcState → RcState
  | .live n => .live (n + 1)
  | .destroyed => .destroyed

/-- One decrement of the count; dropping from 1 destroys the node.  A live
count of 0 cannot arise (nodes start at 1), and a destroyed node stays
destroyed. -/
def dropRc : RcState → RcState
  | .live (n + 1) => if n = 0 then .destroyed else .live n
  | .live 0 => .live 0
  | .destroyed => .destroyed

/-- Modelled from the spec: `json_incref` bumps the count and returns the very
handle it was given.  A node is (address, state); the second component of the
result is the returned address. -/
def json_incref (node : Nat × RcState) : (Nat × RcState) × Nat :=
  ((node.1, bumpRc node.2), node.1)

/-- Modelled from the spec: `json_decref` decrements and destroys at zero. -/
def json_decref (node : Nat × RcState) : Nat × RcState :=
  (node.1, dropRc node.2)

/-! ## Text encoding (modelled from the spec)

`json_dumps` and `json_loads` live in the jansson library, so they are
modelled from the spec's words: standard RFC 8259 JSON text both ways, and
the encoding flags the spec lists (section 4.1/6): indentation width for
pretty-printing, compact versus spaced separators, sort-keys, and
preserve-insertion-order (the default output order; the spec names no
alternative order when it is off, so the model's output order is insertion
order unless sort-keys is set).  The two remaining listed flags do not
distinguish values in the model: ascii-escape only changes the escape
spelling of the same string payload, and real-number precision applies to
the engine's double-to-text conversion, whose payloads the model already
carries as exact decimals (written `mantissa e exponent`); integers are
plain decimal digits. -/

def wsChar (c : Char) : Bool :=
  if c = ' ' then true
  else if c = '\t' then true
  else if c = '\n' then true
  else c = '\r'

def digitChar (c : Char) : Bool :=
  '0' ≤ c && c ≤ '9'

/-- The decimal digit character for `k < 10`. -/
def digCh (k : Nat) : Char := Char.ofNat (48 + k)

/-- Decimal digit characters of `n` (most significant first), before `acc`. -/
def decDigits (n : Nat) (acc : List Char) : List Char :=
  if n < 10 then digCh n :: acc
  else decDigits (n / 10) (digCh (n % 10) :: acc)
termination_by n
decreasing_by exact Nat.div_lt_self (by omega) (by omega)

/-- Character form of an integer: optional minus sign, then decimal digits. -/
def intChars (i : Int) : List Char :=
  (if i < 0 then ['-'] else []) ++ decDigits i.natAbs []

/-- The lowercase hex digit character for `k < 16`. -/
def hexCh (k : Nat) : Char :=
  if k < 10 then Char.ofNat (48 + k) else Char.ofNat (87 + k)

/-- JSON escaping of one character, as the encoder writes it: the two-character
escapes for quote, backslash and the common control characters, a `\u00XX`
escape for the remaining control characters, and the character itself
otherwise. -/
def escChar (c : Char) : List Char :=
  if c = '"' then ['\\', '"']
  else if c = '\\' then ['\\', '\\']
  else if c = '\n' then ['\\', 'n']
  else if c = '\r' then ['\\', 'r']
  else if c = '\t' then ['\\', 't']
  else if c.toNat = 8 then ['\\', 'b']
  else if c.toNat = 12 then ['\\', 'f']
  else if c.toNat < 32 then ['\\', 'u', '0', '0', hexCh (c.toNat / 16), hexCh (c.toNat % 16)]
  else [c]

/-- A string literal: quote, escaped characters, quote. -/
def strLit (s : String) : List Char :=
  '"' :: (s.data.flatMap escChar ++ ['"'])

/-- The padding the encoder writes after `,` and `:` in single-line output:
one space in spaced mode, nothing in compact mode. -/
def sepPad (compact : Bool) : List Char := if compact then [] else [' ']

/-- The encoding flags the spec lists, as far as they distinguish the
modelled text: pretty-print indentation width (0 = single line), compact
separators, sort-keys, and preserve-insertion-order. -/
structure EncFlags where
  indent : Nat := 0
  compact : Bool := false
  sortKeys : Bool := false
  preserveOrder : Bool := true

/-- Whitespace the pretty-printer emits after an opening bracket and before
a closing bracket: a newline plus `indent * depth` spaces, or nothing in
single-line output. -/
def nlGap (fl : EncFlags) (d : Nat) : List Char :=
  if fl.indent = 0 then [] else '\n' :: List.replicate (fl.indent * d) ' '

/-- Whitespace after an item separator: the pretty-printing newline when
indenting, else the single space of spaced mode. -/
def itemGap (fl : EncFlags) (d : Nat) : List Char :=
  if fl.indent = 0 then sepPad fl.compact else nlGap fl d

mutual

/-- Render one value at nesting depth `d` under the given flags. -/
def renderL (fl : EncFlags) (d : Nat) : JVal → List Char
  | .null => ['n', 'u', 'l', 'l']
  | .boolean true => ['t', 'r', 'u', 'e']
  | .boolean false => ['f', 'a', 'l', 's', 'e']
  | .integer n => intChars n
  | .real q => intChars q.mant ++ 'e' :: intChars q.expo
  | .str s => strLit s
  | .arr [] => ['[', ']']
  | .arr (e :: es) =>
      '[' :: (nlGap fl (d + 1) ++ (renderL fl (d + 1) e
        ++ (renderTail fl (d + 1) es ++ (nlGap fl d ++ [']']))))
  | .obj [] => ['{', '}']
  | .obj (kv :: ms) =>
      '{' :: (nlGap fl (d + 1) ++ (renderEntry fl (d + 1) kv
        ++ (renderETail fl (d + 1) ms ++ (nlGap fl d ++ ['}']))))

/-- Remaining array items, each preceded by the item separator. -/
def renderTail (fl : EncFlags) (d : Nat) : List JVal → List Char
  | [] => []
  | e :: es => ',' :: (itemGap fl d ++ (renderL fl d e ++ renderTail fl d es))

/-- One object entry: key literal, key separator, value. -/
def renderEntry (fl : EncFlags) (d : Nat) : String × JVal → List Char
  | (k, v) => strLit k ++ ':' :: (sepPad fl.compact ++ renderL fl d v)

/-- Remaining object entries, each preceded by the item separator. -/
def renderETail (fl : EncFlags) (d : Nat) : List (String × JVal) → List Char
  | [] => []
  | kv :: ms => ',' :: (itemGap fl d ++ (renderEntry fl d kv ++ renderETail fl d ms))

end

/-- Insert one entry into an already-sorted entry list, by key. -/
def insertByKey (kv : String × JVal) : List (String × JVal) → List (String × JVal)
  | [] => [kv]
  | kv2 :: ms => if kv.1 ≤ kv2.1 then kv :: kv2 :: ms else kv2 :: insertByKey kv ms

/-- Sort an entry list by key (insertion sort). -/
def sortByKey : List (String × JVal) → List (String × JVal)
  | [] => []
  | kv :: ms => insertByKey kv (sortByKey ms)

mutual

/-- Modelled from the spec: the sort-keys flag makes the encoder emit every
object's entries in sorted key order instead of insertion order. -/
def deepSort : JVal → JVal
  | .obj ms => .obj (sortByKey (deepSortE ms))
  | .arr es => .arr (deepSortL es)
  | v => v

def deepSortL : List JVal → List JVal
  | [] => []
  | e :: es => deepSort e :: deepSortL es

def deepSortE : List (String × JVal) → List (String × JVal)
  | [] => []
  | (k, v) :: ms => (k, deepSort v) :: deepSortE ms

end

/-- Modelled from the spec: `json_dumps` produces the tree's text
representation under the given encoding flags (sorted key order when
sort-keys is set, insertion order otherwise).  The spec's only failure mode
is an internal write/allocation failure, which the wrapped engine treats as
fatal and the model does not represent. -/
def json_dumps (fl : EncFlags) (v : JVal) : String :=
  String.mk (renderL fl 0 (if fl.sortKeys then deepSort v else v))

/-! ## Text decoding (modelled from the spec)

The parser is total (it recurses on a fuel bound that `json_loads` sets above
the input length) and reports failures as the suffix of the input at which it
stopped, plus a human-readable message; `json_loads` turns that suffix into
the 1-based line and column the spec requires of a NotWellFormed error. -/

/-- A parse failure: the unconsumed input at the failure point, and a
message.  The fuel-exhaustion payload is `[]`, a case `json_loads` never
reaches (its fuel exceeds the input length). -/
structure PFail where
  rest : List Char
  msg : String

def skipWs : List Char → List Char
  | c :: cs => if wsChar c then skipWs cs else c :: cs
  | [] => []

/-- Longest digit run at the front of the input, and what follows it. -/
def grabDigits : List Char → List Char × List Char
  | c :: cs =>
      if digitChar c then
        let (ds, r) := grabDigits cs
        (c :: ds, r)
      else ([], c :: cs)
  | [] => ([], [])

/-- The natural number a digit run denotes. -/
def digitsVal (ds : List Char) : Nat :=
  ds.foldl (fun acc c => acc * 10 + (c.toNat - 48)) 0

/-- The value of a lowercase/uppercase hex digit character. -/
def hexVal (c : Char) : Option Nat :=
  if '0' ≤ c && c ≤ '9' then some (c.toNat - 48)
  else if 'a' ≤ c && c ≤ 'f' then some (c.toNat - 87)
  else if 'A' ≤ c && c ≤ 'F' then some (c.toNat - 55)
  else none

/-- The character a two-character escape stands for. -/
def unescChar (c : Char) : Option Char :=
  if c = '"' then some '"'
  else if c = '\\' then some '\\'
  else if c = '/' then some '/'
  else if c = 'n' then some '\n'
  else if c = 'r' then some '\r'
  else if c = 't' then some '\t'
  else if c = 'b' then some (Char.ofNat 8)
  else if c = 'f' then some (Char.ofNat 12)
  else none

/-- Body of a string literal, after the opening quote: plain characters up to
the closing quote, with escapes decoded; bare control characters are
rejected, as the spec's RFC 8259 grammar requires. -/
def strBody (acc : List Char) : List Char → Except PFail (String × List Char)
  | '"' :: r => .ok (String.mk acc.reverse, r)
  | '\\' :: 'u' :: a :: b :: c :: d :: r =>
      match hexVal a, hexVal b, hexVal c, hexVal d with
      | some va, some vb, some vc, some vd =>
          strBody (Char.ofNat (((va * 16 + vb) * 16 + vc) * 16 + vd) :: acc) r
      | _, _, _, _ => .error ⟨'\\' :: 'u' :: a :: b :: c :: d :: r, "invalid escape"⟩
  | '\\' :: e :: r =>
      match unescChar e with
      | some ch => strBody (ch :: acc) r
      | none => .error ⟨'\\' :: e :: r, "invalid escape"⟩
  | '\\' :: [] => .error ⟨['\\'], "premature end of input"⟩
  | c :: r =>
      if c.toNat < 32 then .error ⟨c :: r, "control character in string"⟩
      else strBody (c :: acc) r
  | [] => .error ⟨[], "premature end of input"⟩

/-- Exponent part of a number, after the `e`: optional sign, then digits. -/
def expPart (cs : List Char) : Except PFail (Int × List Char) :=
  let (sgn, r1) : Int × List Char :=
    match cs with
    | '+' :: r => (1, r)
    | '-' :: r => (-1, r)
    | _ => (1, cs)
  let (eds, r2) := grabDigits r1
  if eds.isEmpty then .error ⟨cs, "invalid number"⟩
  else .ok (sgn * (digitsVal eds : Int), r2)

/-- A number token: the node is an Integer when the token has neither a
fraction nor an exponent, and a Real otherwise, exactly the library's
strtoll-versus-strtod split. -/
def numToken (cs : List Char) : Except PFail (JVal × List Char) :=
  let (neg, cs1) : Bool × List Char :=
    match cs with
    | '-' :: r => (true, r)
    | _ => (false, cs)
  let (ds, cs2) := grabDigits cs1
  if ds.isEmpty then .error ⟨cs, "invalid number"⟩
  else
    let sg : Int := if neg then -1 else 1
    match cs2 with
    | '.' :: r =>
        let (fs, cs3) := grabDigits r
        if fs.isEmpty then .error ⟨r, "invalid number"⟩
        else
          let mant := sg * (digitsVal (ds ++ fs) : Int)
          match cs3 with
          | 'e' :: r2 =>
              match expPart r2 with
              | .ok (ev, r3) => .ok (.real ⟨mant, ev - (fs.length : Int)⟩, r3)
              | .error e => .error e
          | 'E' :: r2 =>
              match expPart r2 with
              | .ok (ev, r3) => .ok (.real ⟨mant, ev - (fs.length : Int)⟩, r3)
              | .error e => .error e
          | _ => .ok (.real ⟨mant, -(fs.length : Int)⟩, cs3)
    | 'e' :: r2 =>
        match expPart r2 with
        | .ok (ev, r3) => .ok (.real ⟨sg * (digitsVal ds : Int), ev⟩, r3)
        | .error e => .error e
    | 'E' :: r2 =>
        match expPart r2 with
        | .ok (ev, r3) => .ok (.real ⟨sg * (digitsVal ds : Int), ev⟩, r3)
        | .error e => .error e
    | _ => .ok (.integer (sg * (digitsVal ds : Int)), cs2)

/-- Collapse a parsed member list into object contents the way the library's
hash table does: each pair is stored in turn, so a repeated key keeps its
first position and its last value. -/
def intoObj (ms : List (String × JVal)) : List (String × JVal) :=
  ms.foldl (fun acc kv => objSet acc kv.1 kv.2) []

mutual

/-- One JSON value, after optional whitespace; recursion is on `fuel`. -/
def parseVal (fuel : Nat) (cs : List Char) : Except PFail (JVal × List Char) :=
  match fuel with
  | 0 => .error ⟨[], "fuel exhausted"⟩
  | f + 1 =>
      match skipWs cs with
      | 'n' :: 'u' :: 'l' :: 'l' :: r => .ok (.null, r)
      | 't' :: 'r' :: 'u' :: 'e' :: r => .ok (.boolean true, r)
      | 'f' :: 'a' :: 'l' :: 's' :: 'e' :: r => .ok (.boolean false, r)
      | '"' :: r =>
          match strBody [] r with
          | .ok (s, r1) => .ok (.str s, r1)
          | .error e => .error e
      | '[' :: r =>
          match skipWs r with
          | [] => .error ⟨[], "premature end of input"⟩
          | c :: r1 =>
              if c = ']' then .ok (.arr [], r1)
              else
                match parseItems f (c :: r1) with
                | .ok (es, r2) => .ok (.arr es, r2)
                | .error e => .error e
      | '{' :: r =>
          match skipWs r with
          | [] => .error ⟨[], "premature end of input"⟩
          | c :: r1 =>
              if c = '}' then .ok (.obj [], r1)
              else
                match parseEntries f (c :: r1) with
                | .ok (ms, r2) => .ok (.obj (intoObj ms), r2)
                | .error e => .error e
      | c :: r =>
          if c = '-' || digitChar c then numToken (c :: r)
          else .error ⟨c :: r, "unexpected token"⟩
      | [] => .error ⟨[], "premature end of input"⟩

/-- One or more comma-separated array items, up to the closing bracket. -/
def parseItems (fuel : Nat) (cs : List Char) :
    Except PFail (List JVal × List Char) :=
  match fuel with
  | 0 => .error ⟨[], "fuel exhausted"⟩
  | f + 1 =>
      match parseVal f cs with
      | .error e => .error e
      | .ok (v, r) =>
          match skipWs r with
          | ',' :: r1 =>
              match parseItems f r1 with
              | .ok (vs, r2) => .ok (v :: vs, r2)
              | .error e => .error e
          | ']' :: r1 => .ok ([v], r1)
          | r1 => .error ⟨r1, "item separator expected"⟩

/-- One or more comma-separated object entries, up to the closing brace. -/
def parseEntries (fuel : Nat) (cs : List Char) :
    Except PFail (List (String × JVal) × List Char) :=
  match fuel with
  | 0 => .error ⟨[], "fuel exhausted"⟩
  | f + 1 =>
      match skipWs cs with
      | '"' :: r =>
          match strBody [] r with
          | .error e => .error e
          | .ok (k, r1) =>
              match skipWs r1 with
              | ':' :: r2 =>
                  match parseVal f r2 with
                  | .error e => .error e
                  | .ok (v, r3) =>
                      match skipWs r3 with
                      | ',' :: r4 =>
                          match parseEntries f r4 with
                          | .ok (ms, r5) => .ok ((k, v) :: ms, r5)
                          | .error e => .error e
                      | '}' :: r4 => .ok ([(k, v)], r4)
                      | r4 => .error ⟨r4, "entry separator expected"⟩
              | r2 => .error ⟨r2, "colon expected"⟩
      | r => .error ⟨r, "object key expected"⟩

end

/-- One whole document: any RFC 8259 value covering the input up to trailing
whitespace. -/
def parseDoc (cs : List Char) : Except PFail JVal :=
  match parseVal (cs.length + 1) cs with
  | .error e => .error e
  | .ok (v, r) =>
      match skipWs r with
      | [] => .ok v
      | r1 => .error ⟨r1, "end of input expected"⟩

/-- The decoder's diagnostic record, as the spec's NotWellFormed error:
1-based line, 1-based column, human-readable message (json_error_t). -/
structure json_error_t where
  line : Nat
  column : Nat
  text : String

/-- 1-based line number after consuming `pre`. -/
def lineAt (pre : List Char) : Nat :=
  1 + (pre.filter (fun c => c == '\n')).length

/-- 1-based column number after consuming `pre`. -/
def colAt (pre : List Char) : Nat :=
  1 + (pre.reverse.takeWhile (fun c => c != '\n')).length

/-- Modelled from the spec: `json_loads` parses the text, or fills a
`json_error_t` with the 1-based line and column of the failure point and a
message, for malformed input.  The decoding flags of the engine's signature
are accepted, but the spec's parse contract (RFC 8259 text in, tree or
NotWellFormed error out) names none that alter acceptance, so they do not
affect the model. -/
def json_loads (s : String) (flags : Nat) : Except json_error_t JVal :=
  match parseDoc s.data with
  | .ok v => .ok v
  | .error e =>
      let pre := s.data.take (s.data.length - e.rest.length)
      .error ⟨lineAt pre, colAt pre, e.msg⟩

/-! ## The wrapper's load entry points (from src/janssonex.hpp)

`JSON::FromString` and `JSON::FromFile` call the decoder and, when it fails,
printf a diagnostic line themselves and return nullptr; the caller receives
no error record.  The model returns (returned pointer, lines printed). -/

/-- The exact line `JSON::FromString`/`JSON::FromFile` print on failure (both
use the `[JSON::FromFile]` prefix; the one in FromString is a copy of
FromFile's). -/
def invalidJsonLog (e : json_error_t) : String :=
  "[JSON::FromFile] Invalid JSON in line " ++ toString e.line ++
    ", column " ++ toString e.column ++ ": " ++ e.text

/-- `JSON::FromString(str, flags)` from the source: `json_loads`, printf of
the diagnostic on failure, and the raw pointer (nullptr on failure) returned
either way. -/
def FromString (s : String) (flags : Nat) : Option JVal × List String :=
  match json_loads s flags with
  | .ok j => (some j, [])
  | .error e => (none, [invalidJsonLog e])

/-- `JSON::FromFile(file, flags)` from the source: `json_load_file`, printf
of the diagnostic on failure, and the raw pointer returned either way.  The
file system is a map from paths to contents; an unreadable file is an I/O
failure, which jansson reports without line information (modelled as line and
column 0). -/
def FromFile (fs : String → Option String) (path : String) (flags : Nat) :
    Option JVal × List String :=
  match fs path with
  | none => (none, [invalidJsonLog ⟨0, 0, "unable to open file"⟩])
  | some content =>
      match json_loads content flags with
      | .ok j => (some j, [])
      | .error e => (none, [invalidJsonLog e])

/-! ## Well-formed trees and number-delimiter tests (for the round trip) -/

/-- Input that cannot extend a number token: empty, or starting with a
character that is neither a digit, a dot, nor an exponent marker.  Every
delimiter the encoder writes after a number (`,`, `]`, `}`, end of input)
qualifies. -/
def numStop : List Char → Bool
  | [] => true
  | c :: _ => !(digitChar c || c == '.' || c == 'e' || c == 'E')

/-- Whether the entry list's keys are pairwise distinct, the object invariant
the core's constructors and mutators maintain (Set never duplicates a key). -/
def keysFresh : List (String × JVal) → Bool
  | [] => true
  | (k, _) :: ms => !hasKeyB ms k && keysFresh ms

mutual

/-- Every object in the tree has pairwise-distinct keys: the invariant of
trees built through the core's constructors and mutators. -/
def wfV : JVal → Bool
  | .obj ms => keysFresh ms && wfEntries ms
  | .arr es => wfItems es
  | _ => true

def wfItems : List JVal → Bool
  | [] => true
  | e :: es => wfV e && wfItems es

def wfEntries : List (String × JVal) → Bool
  | [] => true
  | (_, v) :: ms => wfV v && wfEntries ms

end

/-! ## Helper lemmas on the object model -/

theorem lookupKey_eq_none (ms : List (String × JVal)) (k : String)
    (h : hasKeyB ms k = false) : lookupKey ms k = none := by
  induction ms with
  | nil => rfl
  | cons kv ms ih =>
      obtain ⟨k', v'⟩ := kv
      simp only [hasKeyB, Bool.or_eq_false_iff] at h
      simp only [lookupKey, h.1, if_false]
      exact ih h.2

theorem objSet_absent (ms : List (String × JVal)) (k : String) (v : JVal)
    (h : hasKeyB ms k = false) : objSet ms k v = ms ++ [(k, v)] := by
  induction ms with
  | nil => rfl
  | cons kv ms ih =>
      obtain ⟨k', v'⟩ := kv
      simp only [hasKeyB, Bool.or_eq_false_iff] at h
      simp [objSet, h.1, ih h.2]

theorem objSet_keys_present (ms : List (String × JVal)) (k : String) (v : JVal)
    (h : hasKeyB ms k = true) : keysOf (objSet ms k v) = keysOf ms := by
  induction ms with
  | nil => simp [hasKeyB] at h
  | cons kv ms ih =>
      obtain ⟨k', v'⟩ := kv
      by_cases hk : (k' == k) = true
      · simp [objSet, hk, keysOf]
      · simp only [hasKeyB, hk, Bool.false_or] at h
        simp only [objSet, hk, if_false, keysOf, List.map_cons]
        simpa [keysOf] using ih h

theorem objSet_lookup_self (ms : List (String × JVal)) (k : String) (v : JVal) :
    lookupKey (objSet ms k v) k = some v := by
  induction ms with
  | nil => simp [objSet, lookupKey]
  | cons kv ms ih =>
      obtain ⟨k', v'⟩ := kv
      by_cases hk : (k' == k) = true
      · simp [objSet, hk, lookupKey]
      · simp only [objSet, hk, if_false, lookupKey, ih]
        simp [hk]

theorem objSet_lookup_ne (ms : List (String × JVal)) (k k' : String) (v : JVal)
    (h : (k' == k) = false) :
    lookupKey (objSet ms k v) k' = lookupKey ms k' := by
  induction ms with
  | nil =>
      simp only [objSet, lookupKey]
      have h2 : (k == k') = false := by
        simp only [beq_eq_false_iff_ne, ne_eq] at h ⊢
        exact fun hE => h hE.symm
      simp [h2]
  | cons kv ms ih =>
      obtain ⟨k0, v0⟩ := kv
      by_cases hk : (k0 == k) = true
      · have hne : (k0 == k') = false := by
          simp only [beq_iff_eq] at hk
          simp only [beq_eq_false_iff_ne, ne_eq] at h ⊢
          subst hk
          intro hE
          exact h hE.symm
        simp [objSet, hk, lookupKey, hne]
      · simp only [objSet, hk, if_false, lookupKey]
        by_cases h0 : (k0 == k') = true
        · simp [h0]
        · simp only [h0, if_false]
          exact ih

/-! ## Helper lemmas on reference counting -/

theorem iterate_bump (n : Nat) : ∀ (m a : Nat),
    Nat.iterate (fun p => (json_incref p).1) n (a, RcState.live m)
      = (a, RcState.live (m + n)) := by
  induction n with
  | zero => intro m a; rfl
  | succ n ih =>
      intro m a
      rw [Function.iterate_succ_apply]
      show Nat.iterate _ n (a, RcState.live (m + 1)) = _
      rw [ih (m + 1) a]
      congr 2
      omega

theorem iterate_drop_destroyed (k : Nat) (a : Nat) :
    Nat.iterate json_decref k (a, RcState.destroyed) = (a, RcState.destroyed) := by
  induction k with
  | zero => rfl
  | succ k ih => rw [Function.iterate_succ_apply]; exact ih

theorem iterate_drop (k : Nat) : ∀ (m a : Nat),
    Nat.iterate json_decref k (a, RcState.live (m + 1))
      = (a, if k ≤ m then RcState.live (m + 1 - k) else RcState.destroyed) := by
  induction k with
  | zero => intro m a; simp
  | succ k ih =>
      intro m a
      rw [Function.iterate_succ_apply]
      match m with
      | 0 =>
          show Nat.iterate json_decref k (a, dropRc (RcState.live 1)) = _
          have hd : dropRc (RcState.live 1) = RcState.destroyed := rfl
          rw [hd, iterate_drop_destroyed]
          simp
      | m + 1 =>
          show Nat.iterate json_decref k (a, dropRc (RcState.live (m + 2))) = _
          have hd : dropRc (RcState.live (m + 2)) = RcState.live (m + 1) := by
            simp [dropRc]
          rw [hd, ih m a]
          by_cases hk : k ≤ m
          · rw [if_pos hk, if_pos (by omega)]
            have he : m + 1 - k = m + 1 + 1 - (k + 1) := by omega
            rw [he]
          · rw [if_neg hk, if_neg (by omega)]

/-! ## Helper lemmas on null checks -/

theorem json_is_null_iff (o : Option JVal) :
    json_is_null o = true ↔ o = some JVal.null := by
  match o with
  | none => simp [json_is_null]
  | some v => cases v <;> simp [json_is_null]

/-! ## Claim theorems -/

/-- C1 (amended): for every malformed input text (or file with well-defined
content), FromString and FromFile return a null pointer to the caller — not a
structured error — and the core itself prints one diagnostic line carrying
the error's 1-based line number, column number, and human-readable message;
logging is performed by the core, not left to the caller. -/
theorem claim1_parse_error_logged (s : String) (fl : Nat) (e : json_error_t)
    (h : json_loads s fl = .error e) :
    FromString s fl =
      (none, ["[JSON::FromFile] Invalid JSON in line " ++ toString e.line ++
        ", column " ++ toString e.column ++ ": " ++ e.text]) ∧
    ∀ (fs : String → Option String) (path : String), fs path = some s →
      FromFile fs path fl =
        (none, ["[JSON::FromFile] Invalid JSON in line " ++ toString e.line ++
          ", column " ++ toString e.column ++ ": " ++ e.text]) := by
  constructor
  · simp [FromString, h, invalidJsonLog]
  · intro fs path hp
    simp [FromFile, hp, h, invalidJsonLog]

/-- C1 witness: the malformed text `"{"` makes FromString return null and
print the diagnostic (line 1, column 2). -/
theorem claim1_witness :
    FromString "\x7b" 0 =
      (none, ["[JSON::FromFile] Invalid JSON in line " ++ toString (1 : Nat) ++
        ", column " ++ toString (2 : Nat) ++ ": " ++ "premature end of input"]) :=
  (claim1_parse_error_logged "\x7b" 0 ⟨1, 2, "premature end of input"⟩ rfl).1

/-- C1 counterexample to the claim as stated: on the malformed text `"{"` the
caller receives a bare null (no error record carrying line/column/message),
and the core's own log output is not empty — so the core does perform the
logging the claim says it never does. -/
theorem claim1_counterexample :
    (FromString "\x7b" 0).1 = none ∧ (FromString "\x7b" 0).2 ≠ [] := by
  refine ⟨rfl, ?_⟩
  intro h
  exact absurd h (by decide)

/-- C2: on an array node, for every index at or beyond the current size, Get,
Set and Remove fail with no structural change, while Insert additionally
succeeds exactly at index = size, where it appends. -/
theorem claim2_array_index_bounds (a : List JVal) (i : Nat) (v : JVal)
    (h : a.length ≤ i) :
    json_array_get (.arr a) i = none ∧
    json_array_set (.arr a) i v = none ∧
    json_array_remove (.arr a) i = none ∧
    json_array_insert (.arr a) i v =
      (if i = a.length then some (.arr (a ++ [v])) else none) := by
  refine ⟨?_, ?_, ?_, ?_⟩
  · simp only [json_array_get]
    exact List.get?_eq_none.mpr h
  · simp [json_array_set, Nat.not_lt.mpr h]
  · simp [json_array_remove, Nat.not_lt.mpr h]
  · by_cases hi : i = a.length
    · subst hi
      simp [json_array_insert, List.insertIdx_length_self]
    · have : ¬ i ≤ a.length := by omega
      simp [json_array_insert, this, hi]

/-- C2 witness: index 2 on a one-element array. -/
theorem claim2_witness :
    json_array_get (.arr [JVal.null]) 2 = none ∧
    json_array_set (.arr [JVal.null]) 2 JVal.null = none ∧
    json_array_remove (.arr [JVal.null]) 2 = none ∧
    json_array_insert (.arr [JVal.null]) 2 JVal.null = none := by
  have h := claim2_array_index_bounds [JVal.null] 2 JVal.null (by decide)
  exact ⟨h.1, h.2.1, h.2.2.1, by rw [h.2.2.2]; rfl⟩

/-- C3 (amended): on a tag mismatch GetValue raises no error and returns the
zero/default value of the requested type — except that requesting a real on
an Integer node returns that integer's numeric value (the source library's
permissive numeric coercion). -/
theorem claim3_getvalue_default (v : JVal) :
    (tagOf v ≠ .boolTag → json_boolean_value v = false) ∧
    (tagOf v ≠ .intTag → json_integer_value v = 0) ∧
    (tagOf v ≠ .strTag → json_string_value v = none) ∧
    (tagOf v ≠ .realTag →
      ((∀ n : Int, v ≠ .integer n) → json_number_value v = ⟨0, 0⟩) ∧
      (∀ n : Int, v = .integer n → json_number_value v = ⟨n, 0⟩)) := by
  cases v <;>
    simp [tagOf, json_boolean_value, json_integer_value, json_string_value,
      json_number_value]

/-- C3 witness: GetValue of an integer from a String node yields 0, and of a
bool from a Null node yields false. -/
theorem claim3_witness :
    json_integer_value (.str "x") = 0 ∧ json_boolean_value .null = false :=
  ⟨(claim3_getvalue_default (.str "x")).2.1 (by decide),
   (claim3_getvalue_default .null).1 (by decide)⟩

/-- C3 counterexample to the claim as stated: GetValue of a real from an
Integer node holding 5 returns the number 5, not the zero/default double. -/
theorem claim3_counterexample :
    json_number_value (.integer 5) = ⟨5, 0⟩ ∧
    JNum.toRat (json_number_value (.integer 5)) ≠ 0 := by
  refine ⟨rfl, ?_⟩
  simp [json_number_value, JNum.toRat]

/-- C5: object Set appends a fresh key at the end; on a present key it
replaces the value in place, leaving every key's position unchanged; hence
inserting "a","c","b" and iterating yields exactly "a","c","b", and replacing
"c"'s value does not move it. -/
theorem claim5_object_insertion_order :
    (∀ (o : List (String × JVal)) (k : String) (v : JVal),
        hasKeyB o k = false → objSet o k v = o ++ [(k, v)]) ∧
    (∀ (o : List (String × JVal)) (k : String) (v : JVal),
        hasKeyB o k = true →
          keysOf (objSet o k v) = keysOf o ∧
          lookupKey (objSet o k v) k = some v ∧
          ∀ k' : String, (k' == k) = false →
            lookupKey (objSet o k v) k' = lookupKey o k') ∧
    (∀ a c b c2 : JVal,
        drainKeys 4 (mkIter (.obj (objSet (objSet (objSet [] "a" a) "c" c) "b" b)))
          = ["a", "c", "b"] ∧
        drainKeys 4 (mkIter (.obj (objSet (objSet (objSet (objSet [] "a" a) "c" c) "b" b) "c" c2)))
          = ["a", "c", "b"]) := by
  refine ⟨objSet_absent, ?_, ?_⟩
  · intro o k v h
    exact ⟨objSet_keys_present o k v h, objSet_lookup_self o k v,
      fun k' h' => objSet_lookup_ne o k k' v h'⟩
  · intro a c b c2
    exact ⟨rfl, rfl⟩

/-- C5 witness: a concrete append and a concrete in-place replacement. -/
theorem claim5_witness :
    objSet [("a", JVal.null)] "b" JVal.null = [("a", JVal.null), ("b", JVal.null)] ∧
    keysOf (objSet [("a", JVal.null), ("b", JVal.null)] "a" (.integer 7))
      = ["a", "b"] :=
  ⟨claim5_object_insertion_order.1 [("a", JVal.null)] "b" JVal.null rfl,
   (claim5_object_insertion_order.2.1 [("a", JVal.null), ("b", JVal.null)] "a"
      (.integer 7) rfl).1⟩

/-- C6: Update with mode EXISTING (= 1) on target x:1,y:2 from source
y:9,z:3 overwrites y, does not add z, and reports success. -/
theorem claim6_update_existing :
    Update [("x", .integer 1), ("y", .integer 2)] [("y", .integer 9), ("z", .integer 3)] 1
      = (true, [("x", .integer 1), ("y", .integer 9)]) := by
  rfl

/-- C7: starting from a fresh node (count 1), n Retains reach count n+1; each
Retain returns the very handle it was given; and k Releases then leave the
node live at count n+1-k while k ≤ n and destroyed (exactly once, at the
(n+1)-th Release) for every k > n. -/
theorem claim7_refcount (n a : Nat) :
    Nat.iterate (fun p => (json_incref p).1) n (a, RcState.live 1)
      = (a, RcState.live (n + 1)) ∧
    (∀ p : Nat × RcState, (json_incref p).2 = p.1) ∧
    (∀ k : Nat, Nat.iterate json_decref k (a, RcState.live (n + 1))
      = (a, if k ≤ n then RcState.live (n + 1 - k) else RcState.destroyed)) := by
  refine ⟨?_, fun p => rfl, fun k => iterate_drop k n a⟩
  rw [iterate_bump n 1 a]
  congr 2
  omega

/-- C8: Update called with any mode value outside the seven defined
ObjectUpdateType constants (0..6) returns false and leaves the target
unchanged. -/
theorem claim8_update_unknown_mode (t s : List (String × JVal)) (ty : Int)
    (h : ty < 0 ∨ 6 < ty) : Update t s ty = (false, t) := by
  have h0 : ¬ ty = 0 := by omega
  have h1 : ¬ ty = 1 := by omega
  have h2 : ¬ ty = 2 := by omega
  have h3 : ¬ ty = 3 := by omega
  have h4 : ¬ ty = 4 := by omega
  have h5 : ¬ ty = 5 := by omega
  have h6 : ¬ ty = 6 := by omega
  simp [Update, h0, h1, h2, h3, h4, h5, h6]

/-- C8 witness: mode 7 is rejected and the target kept intact. -/
theorem claim8_witness :
    Update [("x", JVal.null)] [("y", JVal.null)] 7 = (false, [("x", JVal.null)]) :=
  claim8_update_unknown_mode [("x", JVal.null)] [("y", JVal.null)] 7
    (Or.inr (by norm_num))

/-- C9: IsNull on an absent object key and on an out-of-range array index
returns false rather than failing; in general IsNull is true exactly when the
child exists and its tag is Null. -/
theorem claim9_isnull :
    (∀ (ms : List (String × JVal)) (k : String),
        hasKeyB ms k = false → IsNullKey (.obj ms) k = false) ∧
    (∀ (es : List JVal) (i : Nat), es.length ≤ i → IsNullIdx (.arr es) i = false) ∧
    (∀ (j : JVal) (k : String), IsNullKey j k = true ↔ json_object_get j k = some .null) ∧
    (∀ (j : JVal) (i : Nat), IsNullIdx j i = true ↔ json_array_get j i = some .null) := by
  refine ⟨?_, ?_, ?_, ?_⟩
  · intro ms k h
    simp [IsNullKey, json_object_get, lookupKey_eq_none ms k h, json_is_null]
  · intro es i h
    show json_is_null (es.get? i) = false
    rw [List.get?_eq_none.mpr h]
    rfl
  · intro j k
    exact json_is_null_iff (json_object_get j k)
  · intro j i
    exact json_is_null_iff (json_array_get j i)

/-- C9 witness: an absent key and an out-of-range index both answer false. -/
theorem claim9_witness :
    IsNullKey (.obj [("a", JVal.null)]) "b" = false ∧
    IsNullIdx (.arr [JVal.null]) 3 = false :=
  ⟨claim9_isnull.1 [("a", JVal.null)] "b" rfl,
   claim9_isnull.2.1 [JVal.null] 3 (by decide)⟩

/-- C10: an iterator built from a non-Object node holds the NULL cursor, and
GetKeyValue on a NULL or exhausted cursor returns false with no valid key
written; on a live cursor it returns true with the current key/value pair and
advances exactly one entry. -/
theorem claim10_iterator :
    (∀ v : JVal, tagOf v ≠ .objTag → mkIter v = ⟨[]⟩) ∧
    GetKeyValue ⟨[]⟩ = (false, none, none, ⟨[]⟩) ∧
    (∀ (k : String) (v : JVal) (rest : List (String × JVal)),
        GetKeyValue ⟨(k, v) :: rest⟩ = (true, some k, some v, ⟨rest⟩)) := by
  refine ⟨?_, rfl, fun k v rest => rfl⟩
  intro v hv
  cases v <;> first | rfl | exact absurd rfl hv

/-- C10 witness: an integer node yields the empty iterator, whose first
GetKeyValue call already reports exhaustion. -/
theorem claim10_witness :
    mkIter (.integer 3) = ⟨[]⟩ ∧ GetKeyValue (mkIter (.integer 3)) = (false, none, none, ⟨[]⟩) :=
  ⟨claim10_iterator.1 (.integer 3) (by decide), claim10_iterator.2.1⟩

/-! ## Round-trip development, part 1: decimal digits -/

theorem digCh_spec (k : Nat) (h : k < 10) :
    (digCh k).toNat - 48 = k ∧ digitChar (digCh k) = true := by
  interval_cases k <;> exact (by decide)

theorem decDigits_acc (n : Nat) : ∀ acc : List Char,
    decDigits n acc = decDigits n [] ++ acc := by
  induction n using Nat.strong_induction_on with
  | _ n ih =>
    intro acc
    rw [decDigits.eq_def n acc, decDigits.eq_def n []]
    by_cases h : n < 10
    · simp [h]
    · have hlt : n / 10 < n := Nat.div_lt_self (by omega) (by omega)
      simp only [if_neg h]
      rw [ih (n / 10) hlt (digCh (n % 10) :: acc), ih (n / 10) hlt [digCh (n % 10)]]
      simp

theorem decDigits_unfold (n : Nat) :
    decDigits n [] = (if n < 10 then [] else decDigits (n / 10) []) ++ [digCh (n % 10)] := by
  rw [decDigits.eq_def]
  by_cases h : n < 10
  · simp [h, Nat.mod_eq_of_lt h]
  · simp only [if_neg h]
    exact decDigits_acc (n / 10) [digCh (n % 10)]

theorem decDigits_ne_nil (n : Nat) : decDigits n [] ≠ [] := by
  rw [decDigits_unfold]
  simp

theorem decDigits_digit (n : Nat) : ∀ c ∈ decDigits n [], digitChar c = true := by
  induction n using Nat.strong_induction_on with
  | _ n ih =>
    rw [decDigits_unfold]
    intro c hc
    rw [List.mem_append] at hc
    rcases hc with hc | hc
    · by_cases h : n < 10
      · simp [h] at hc
      · exact ih (n / 10) (Nat.div_lt_self (by omega) (by omega)) c (by simpa [h] using hc)
    · rw [List.mem_singleton] at hc
      subst hc
      exact (digCh_spec (n % 10) (Nat.mod_lt _ (by omega))).2

theorem digitsVal_decDigits (n : Nat) : digitsVal (decDigits n []) = n := by
  induction n using Nat.strong_induction_on with
  | _ n ih =>
    rw [decDigits_unfold]
    simp only [digitsVal, List.foldl_append]
    by_cases h : n < 10
    · simp only [if_pos h, List.foldl_nil, List.foldl_cons]
      rw [(digCh_spec (n % 10) (Nat.mod_lt _ (by omega))).1]
      omega
    · simp only [if_neg h, List.foldl_cons, List.foldl_nil]
      have := ih (n / 10) (Nat.div_lt_self (by omega) (by omega))
      simp only [digitsVal] at this
      rw [this, (digCh_spec (n % 10) (Nat.mod_lt _ (by omega))).1]
      omega

theorem decDigits_head (n : Nat) :
    ∃ c t, decDigits n [] = c :: t ∧ digitChar c = true := by
  match h : decDigits n [] with
  | [] => exact absurd h (decDigits_ne_nil n)
  | c :: t => exact ⟨c, t, rfl, decDigits_digit n c (h ▸ List.mem_cons_self c t)⟩

/-! ## Round-trip development, part 2: digit runs and delimiters -/

theorem digit_excludes {c : Char} (h : digitChar c = true) :
    c ≠ '-' ∧ c ≠ '+' ∧ wsChar c = false ∧ c ≠ ']' ∧ c ≠ '}' ∧
    c ≠ 'n' ∧ c ≠ 't' ∧ c ≠ 'f' ∧ c ≠ '"' ∧ c ≠ '[' ∧ c ≠ '{' ∧
    c ≠ '.' ∧ c ≠ 'e' ∧ c ≠ 'E' := by
  have hw : wsChar c = false := by
    simp only [wsChar]
    split_ifs with h1 h2 h3
    · subst h1; exact absurd h (by decide)
    · subst h2; exact absurd h (by decide)
    · subst h3; exact absurd h (by decide)
    · simp only [decide_eq_false_iff_not]
      intro hE
      subst hE
      exact absurd h (by decide)
  refine ⟨?_, ?_, hw, ?_, ?_, ?_, ?_, ?_, ?_, ?_, ?_, ?_, ?_, ?_⟩ <;>
    (intro hE; subst hE; exact absurd h (by decide))

theorem numStop_head {c : Char} {t : List Char} (h : numStop (c :: t) = true) :
    digitChar c = false ∧ c ≠ '.' ∧ c ≠ 'e' ∧ c ≠ 'E' := by
  simp only [numStop, Bool.not_eq_eq_eq_not, Bool.not_true, Bool.or_eq_false_iff,
    beq_eq_false_iff_ne, ne_eq] at h
  exact ⟨h.1.1.1, h.1.1.2, h.1.2, h.2⟩

theorem grabDigits_nondigit {c : Char} (h : digitChar c = false) (t : List Char) :
    grabDigits (c :: t) = ([], c :: t) := by
  simp [grabDigits, h]

theorem grabDigits_stop {cs : List Char} (h : numStop cs = true) :
    grabDigits cs = ([], cs) := by
  match cs with
  | [] => rfl
  | c :: t => exact grabDigits_nondigit (numStop_head h).1 t

theorem grabDigits_run (ds : List Char) (hds : ∀ c ∈ ds, digitChar c = true)
    (rest : List Char) (hrest : grabDigits rest = ([], rest)) :
    grabDigits (ds ++ rest) = (ds, rest) := by
  induction ds with
  | nil => simpa using hrest
  | cons c t ih =>
      have hc : digitChar c = true := hds c (by simp)
      have ht := ih (fun x hx => hds x (by simp [hx]))
      simp [grabDigits, hc, ht]

theorem grabDigits_dec (n : Nat) (rest : List Char)
    (h : grabDigits rest = ([], rest)) :
    grabDigits (decDigits n [] ++ rest) = (decDigits n [], rest) :=
  grabDigits_run _ (decDigits_digit n) rest h


/-! ## Round-trip development, part 3: number tokens -/

theorem intChars_neg {i : Int} (h : i < 0) :
    intChars i = '-' :: decDigits i.natAbs [] := by
  simp [intChars, h]

theorem intChars_nonneg {i : Int} (h : ¬ i < 0) :
    intChars i = decDigits i.natAbs [] := by
  simp [intChars, h]

theorem numToken_int (n : Int) (rest : List Char) (h : numStop rest = true) :
    numToken (intChars n ++ rest) = .ok (.integer n, rest) := by
  have hne : (decDigits n.natAbs []).isEmpty = false :=
    List.isEmpty_eq_false.mpr (decDigits_ne_nil n.natAbs)
  by_cases hm : n < 0
  · rw [intChars_neg hm, List.cons_append]
    simp only [numToken]
    rw [grabDigits_dec n.natAbs rest (grabDigits_stop h)]
    simp only [hne, Bool.false_eq_true, if_false, digitsVal_decDigits]
    match rest, h with
    | [], _ => simp [abs_of_neg hm]
    | c :: t, h =>
        obtain ⟨_, hdot, he, hE⟩ := numStop_head h
        simp [hdot, he, hE, abs_of_neg hm]
  · rw [intChars_nonneg hm]
    obtain ⟨c0, t0, h0, hc0⟩ := decDigits_head n.natAbs
    obtain ⟨hminus, _⟩ := digit_excludes hc0
    rw [h0, List.cons_append]
    simp only [numToken]
    have hg : grabDigits (c0 :: (t0 ++ rest)) = (c0 :: t0, rest) := by
      have := grabDigits_dec n.natAbs rest (grabDigits_stop h)
      rwa [h0, List.cons_append] at this
    have hv : digitsVal (c0 :: t0) = n.natAbs := by
      have := digitsVal_decDigits n.natAbs
      rwa [h0] at this
    have habs : |n| = n := abs_of_nonneg (by omega)
    match rest, h with
    | [], _ =>
        have hg2 : grabDigits (c0 :: t0) = (c0 :: t0, []) := by simpa using hg
        simp [hminus, hg2, hv, habs]
    | c :: t, h =>
        obtain ⟨_, hdot, he, hE⟩ := numStop_head h
        simp [hminus, hg, hv, habs, hdot, he, hE]

theorem expPart_intChars (ev : Int) (rest : List Char) (h : numStop rest = true) :
    expPart (intChars ev ++ rest) = .ok (ev, rest) := by
  have hne : (decDigits ev.natAbs []).isEmpty = false :=
    List.isEmpty_eq_false.mpr (decDigits_ne_nil ev.natAbs)
  by_cases hm : ev < 0
  · rw [intChars_neg hm, List.cons_append]
    simp only [expPart]
    rw [grabDigits_dec ev.natAbs rest (grabDigits_stop h)]
    simp [hne, digitsVal_decDigits, abs_of_neg hm]
  · rw [intChars_nonneg hm]
    obtain ⟨c0, t0, h0, hc0⟩ := decDigits_head ev.natAbs
    obtain ⟨hminus, hplus, _⟩ := digit_excludes hc0
    rw [h0, List.cons_append]
    simp only [expPart]
    have hg : grabDigits (c0 :: (t0 ++ rest)) = (c0 :: t0, rest) := by
      have := grabDigits_dec ev.natAbs rest (grabDigits_stop h)
      rwa [h0, List.cons_append] at this
    have hv : digitsVal (c0 :: t0) = ev.natAbs := by
      have := digitsVal_decDigits ev.natAbs
      rwa [h0] at this
    have habs : |ev| = ev := abs_of_nonneg (by omega)
    simp [hminus, hplus, hg, hv, habs]

theorem numToken_real (m ex : Int) (rest : List Char) (h : numStop rest = true) :
    numToken (intChars m ++ ('e' :: (intChars ex ++ rest))) = .ok (.real ⟨m, ex⟩, rest) := by
  have hstop : grabDigits ('e' :: (intChars ex ++ rest)) = ([], 'e' :: (intChars ex ++ rest)) :=
    grabDigits_nondigit (by decide) _
  have hep := expPart_intChars ex rest h
  have hne : (decDigits m.natAbs []).isEmpty = false :=
    List.isEmpty_eq_false.mpr (decDigits_ne_nil m.natAbs)
  by_cases hm : m < 0
  · rw [intChars_neg hm, List.cons_append]
    simp only [numToken]
    rw [grabDigits_dec m.natAbs _ hstop]
    simp [hne, digitsVal_decDigits, hep, abs_of_neg hm]
  · rw [intChars_nonneg hm]
    obtain ⟨c0, t0, h0, hc0⟩ := decDigits_head m.natAbs
    obtain ⟨hminus, _⟩ := digit_excludes hc0
    rw [h0, List.cons_append]
    simp only [numToken]
    have hg : grabDigits (c0 :: (t0 ++ ('e' :: (intChars ex ++ rest))))
        = (c0 :: t0, 'e' :: (intChars ex ++ rest)) := by
      have := grabDigits_dec m.natAbs _ hstop
      rwa [h0, List.cons_append] at this
    have hv : digitsVal (c0 :: t0) = m.natAbs := by
      have := digitsVal_decDigits m.natAbs
      rwa [h0] at this
    have habs : |m| = m := abs_of_nonneg (by omega)
    simp [hminus, hg, hv, habs, hep]



/-! ## Round-trip development, part 4: string literals -/

theorem hexVal_hexCh (k : Nat) (h : k < 16) : hexVal (hexCh k) = some k := by
  interval_cases k <;> decide

theorem strBody_esc (c : Char) (acc rest : List Char) :
    strBody acc (escChar c ++ rest) = strBody (c :: acc) rest := by
  by_cases h1 : c = '"'
  · subst h1; rfl
  by_cases h2 : c = '\\'
  · subst h2; simp [escChar]; rfl
  by_cases h3 : c = '\n'
  · subst h3; simp [escChar]; rfl
  by_cases h4 : c = '\r'
  · subst h4; simp [escChar]; rfl
  by_cases h5 : c = '\t'
  · subst h5; simp [escChar]; rfl
  by_cases h6 : c.toNat = 8
  · have hc : c = Char.ofNat 8 := by rw [← h6, Char.ofNat_toNat]
    subst hc; simp [escChar]; rfl
  by_cases h7 : c.toNat = 12
  · have hc : c = Char.ofNat 12 := by rw [← h7, Char.ofNat_toNat]
    subst hc; simp [escChar]; rfl
  by_cases h8 : c.toNat < 32
  · have hesc : escChar c = ['\\', 'u', '0', '0', hexCh (c.toNat / 16), hexCh (c.toNat % 16)] := by
      simp [escChar, h1, h2, h3, h4, h5, h6, h7, h8]
    rw [hesc]
    show strBody acc ('\\' :: 'u' :: '0' :: '0' :: hexCh (c.toNat / 16) :: hexCh (c.toNat % 16) :: rest)
        = strBody (c :: acc) rest
    rw [strBody.eq_def]
    have hh : hexVal (hexCh (c.toNat / 16)) = some (c.toNat / 16) :=
      hexVal_hexCh _ (by omega)
    have hl : hexVal (hexCh (c.toNat % 16)) = some (c.toNat % 16) :=
      hexVal_hexCh _ (Nat.mod_lt _ (by omega))
    have h0 : hexVal '0' = some 0 := by decide
    have harith : (((0 * 16 + 0) * 16 + c.toNat / 16) * 16 + c.toNat % 16) = c.toNat := by
      omega
    simp only [h0, hh, hl]
    rw [harith, Char.ofNat_toNat]
  · have hesc : escChar c = [c] := by
      simp [escChar, h1, h2, h3, h4, h5, h6, h7, h8]
    rw [hesc]
    show strBody acc (c :: rest) = strBody (c :: acc) rest
    rw [strBody.eq_def]
    simp [h1, h2, h8]

end Janssonex

namespace Janssonex

theorem strBody_flat (cs : List Char) : ∀ acc rest : List Char,
    strBody acc (cs.flatMap escChar ++ '"' :: rest)
      = .ok (String.mk (acc.reverse ++ cs), rest) := by
  induction cs with
  | nil => intro acc rest; simp [strBody]
  | cons c cs ih =>
      intro acc rest
      rw [List.flatMap_cons, List.append_assoc, strBody_esc, ih]
      simp

theorem strBody_lit (s : String) (rest : List Char) :
    strBody [] (s.data.flatMap escChar ++ '"' :: rest) = .ok (s, rest) := by
  rw [strBody_flat]
  have : String.mk s.data = s := rfl
  simp [this]

theorem skipWs_cons_of {c : Char} (h : wsChar c = false) (r : List Char) :
    skipWs (c :: r) = c :: r := by
  simp [skipWs, h]

theorem intChars_head (n : Int) :
    ∃ c t, intChars n = c :: t ∧ wsChar c = false ∧ c ≠ ']' ∧ c ≠ '}' := by
  by_cases hm : n < 0
  · exact ⟨'-', decDigits n.natAbs [], intChars_neg hm, by decide⟩
  · obtain ⟨c0, t0, h0, hc0⟩ := decDigits_head n.natAbs
    obtain ⟨_, _, hws, hbr, hbc, _⟩ := digit_excludes hc0
    exact ⟨c0, t0, by rw [intChars_nonneg hm, h0], hws, hbr, hbc⟩

theorem renderL_head (fl : EncFlags) (d : Nat) (j : JVal) :
    ∃ c t, renderL fl d j = c :: t ∧ wsChar c = false ∧ c ≠ ']' ∧ c ≠ '}' := by
  cases j with
  | integer n => exact intChars_head n
  | real q =>
      obtain ⟨c0, t0, h0, hrest⟩ := intChars_head q.mant
      refine ⟨c0, t0 ++ 'e' :: intChars q.expo, ?_, hrest⟩
      show intChars q.mant ++ 'e' :: intChars q.expo = _
      rw [h0, List.cons_append]
  | boolean b => cases b with
      | true => exact ⟨'t', _, rfl, by decide⟩
      | false => exact ⟨'f', _, rfl, by decide⟩
  | arr es => cases es with
      | nil => exact ⟨'[', _, rfl, by decide⟩
      | cons e es => exact ⟨'[', _, rfl, by decide⟩
  | obj ms => cases ms with
      | nil => exact ⟨'\x7b', _, rfl, by decide⟩
      | cons kv ms => exact ⟨'\x7b', _, rfl, by decide⟩
  | null => exact ⟨'n', _, rfl, by decide⟩
  | str s => exact ⟨'"', _, rfl, by decide⟩

theorem skipWs_renderL (fl : EncFlags) (d : Nat) (j : JVal) (x : List Char) :
    skipWs (renderL fl d j ++ x) = renderL fl d j ++ x := by
  obtain ⟨c, t, hr, hws, _, _⟩ := renderL_head fl d j
  rw [hr, List.cons_append, skipWs_cons_of hws]

theorem skipWs_wsrun (g : List Char) (hg : ∀ c ∈ g, wsChar c = true)
    (x : List Char) : skipWs (g ++ x) = skipWs x := by
  induction g with
  | nil => rfl
  | cons c g2 ih =>
      have hc : wsChar c = true := hg c (by simp)
      simp only [List.cons_append, skipWs, hc, if_true]
      exact ih (fun c2 h2 => hg c2 (by simp [h2]))

theorem sepPad_ws (cp : Bool) : ∀ c ∈ sepPad cp, wsChar c = true := by
  cases cp <;> simp [sepPad, wsChar]

theorem nlGap_ws (fl : EncFlags) (d : Nat) : ∀ c ∈ nlGap fl d, wsChar c = true := by
  intro c hc
  simp only [nlGap] at hc
  split at hc
  · simp at hc
  · rcases List.mem_cons.mp hc with h | h
    · subst h; decide
    · have hsp : c = ' ' := List.eq_of_mem_replicate h
      subst hsp; decide

theorem itemGap_ws (fl : EncFlags) (d : Nat) : ∀ c ∈ itemGap fl d, wsChar c = true := by
  intro c hc
  simp only [itemGap] at hc
  split at hc
  · exact sepPad_ws fl.compact c hc
  · exact nlGap_ws fl d c hc

theorem wsChar_numStop {c : Char} (h : wsChar c = true) (t : List Char) :
    numStop (c :: t) = true := by
  simp only [wsChar] at h
  split_ifs at h with h1 h2 h3
  · subst h1; rfl
  · subst h2; rfl
  · subst h3; rfl
  · have hr : c = '\r' := by simpa using h
    subst hr; rfl

theorem numStop_gap (g : List Char) (hg : ∀ c ∈ g, wsChar c = true)
    (c : Char) (h : numStop [c] = true) (t : List Char) :
    numStop (g ++ (c :: t)) = true := by
  cases g with
  | nil => exact h
  | cons c2 g2 => exact wsChar_numStop (hg c2 (by simp)) _

theorem parseVal_wsrun (f : Nat) (g : List Char) (hg : ∀ c ∈ g, wsChar c = true)
    (cs : List Char) : parseVal f (g ++ cs) = parseVal f cs := by
  cases f with
  | zero => rfl
  | succ f =>
      simp only [parseVal]
      rw [skipWs_wsrun g hg]

theorem parseItems_wsrun (f : Nat) (g : List Char) (hg : ∀ c ∈ g, wsChar c = true)
    (cs : List Char) : parseItems f (g ++ cs) = parseItems f cs := by
  cases f with
  | zero => rfl
  | succ f =>
      simp only [parseItems]
      rw [parseVal_wsrun f g hg]

theorem parseEntries_wsrun (f : Nat) (g : List Char) (hg : ∀ c ∈ g, wsChar c = true)
    (cs : List Char) : parseEntries f (g ++ cs) = parseEntries f cs := by
  cases f with
  | zero => rfl
  | succ f =>
      simp only [parseEntries]
      rw [skipWs_wsrun g hg]

end Janssonex

namespace Janssonex

theorem parseVal_str (f : Nat) (s : String) (rest : List Char) :
    parseVal (f + 1) (strLit s ++ rest) = .ok (.str s, rest) := by
  have hsh : strLit s ++ rest = '"' :: (s.data.flatMap escChar ++ ('"' :: rest)) := by
    simp [strLit]
  rw [hsh]
  simp only [parseVal]
  rw [skipWs_cons_of (by decide)]
  simp [strBody_lit]

theorem parseVal_to_num (f : Nat) (c : Char) (t : List Char)
    (hws : wsChar c = false) (h1 : c ≠ 'n') (h2 : c ≠ 't') (h3 : c ≠ 'f')
    (h4 : c ≠ '"') (h5 : c ≠ '[') (h6 : c ≠ '{')
    (hd : c = '-' ∨ digitChar c = true) :
    parseVal (f + 1) (c :: t) = numToken (c :: t) := by
  simp only [parseVal]
  rw [skipWs_cons_of hws]
  rcases hd with hd | hd
  · subst hd; rfl
  · simp [h1, h2, h3, h4, h5, h6, hd]

theorem parseVal_int (f : Nat) (n : Int) (rest : List Char) (h : numStop rest = true) :
    parseVal (f + 1) (intChars n ++ rest) = .ok (.integer n, rest) := by
  have hnum := numToken_int n rest h
  by_cases hm : n < 0
  · rw [intChars_neg hm] at hnum ⊢
    rw [List.cons_append] at hnum ⊢
    rw [parseVal_to_num f '-' _ (by decide) (by decide) (by decide) (by decide)
      (by decide) (by decide) (by decide) (Or.inl rfl)]
    exact hnum
  · obtain ⟨c0, t0, h0, hc0⟩ := decDigits_head n.natAbs
    obtain ⟨_, _, hws, _, _, hn, ht, hf, hq, hbk, hbc, _⟩ := digit_excludes hc0
    rw [intChars_nonneg hm, h0, List.cons_append] at hnum ⊢
    rw [parseVal_to_num f c0 _ hws hn ht hf hq hbk hbc (Or.inr hc0)]
    exact hnum

theorem parseVal_real (f : Nat) (q : JNum) (rest : List Char) (h : numStop rest = true) :
    parseVal (f + 1) ((intChars q.mant ++ 'e' :: intChars q.expo) ++ rest)
      = .ok (.real q, rest) := by
  have hnum := numToken_real q.mant q.expo rest h
  rw [List.append_assoc, List.cons_append]
  by_cases hm : q.mant < 0
  · rw [intChars_neg hm] at hnum ⊢
    rw [List.cons_append] at hnum ⊢
    rw [parseVal_to_num f '-' _ (by decide) (by decide) (by decide) (by decide)
      (by decide) (by decide) (by decide) (Or.inl rfl)]
    exact hnum
  · obtain ⟨c0, t0, h0, hc0⟩ := decDigits_head q.mant.natAbs
    obtain ⟨_, _, hws, _, _, hn, ht, hf, hq, hbk, hbc, _⟩ := digit_excludes hc0
    rw [intChars_nonneg hm, h0, List.cons_append] at hnum ⊢
    rw [parseVal_to_num f c0 _ hws hn ht hf hq hbk hbc (Or.inr hc0)]
    exact hnum

theorem parseVal_arr_cons (f : Nat) (g : List Char) (hg : ∀ c ∈ g, wsChar c = true)
    (fl : EncFlags) (d : Nat) (e : JVal) (Z : List Char) :
    parseVal (f + 1) ('[' :: (g ++ (renderL fl d e ++ Z)))
      = (match parseItems f (renderL fl d e ++ Z) with
         | .ok (vs, r2) => .ok (.arr vs, r2)
         | .error e2 => .error e2) := by
  obtain ⟨c, t, hr, hws, hbr, _⟩ := renderL_head fl d e
  have hcons : renderL fl d e ++ Z = c :: (t ++ Z) := by
    rw [hr, List.cons_append]
  have step : parseVal (f + 1) ('[' :: (g ++ (renderL fl d e ++ Z)))
      = (match skipWs (g ++ (renderL fl d e ++ Z)) with
         | [] => .error ⟨[], "premature end of input"⟩
         | c2 :: r1 =>
             if c2 = ']' then .ok (.arr [], r1)
             else match parseItems f (c2 :: r1) with
                  | .ok (vs, r2) => .ok (.arr vs, r2)
                  | .error e2 => .error e2) := rfl
  rw [step, skipWs_wsrun g hg, skipWs_renderL fl d e Z, hcons]
  simp only [if_neg hbr]

theorem parseVal_obj_cons (f : Nat) (g : List Char) (hg : ∀ c ∈ g, wsChar c = true)
    (fl : EncFlags) (d : Nat) (kv : String × JVal) (Z : List Char) :
    parseVal (f + 1) ('\x7b' :: (g ++ (renderEntry fl d kv ++ Z)))
      = (match parseEntries f (renderEntry fl d kv ++ Z) with
         | .ok (ms0, r2) => .ok (.obj (intoObj ms0), r2)
         | .error e2 => .error e2) := by
  obtain ⟨k, v⟩ := kv
  have hcons : renderEntry fl d (k, v) ++ Z
      = '"' :: (k.data.flatMap escChar
          ++ ('"' :: (':' :: (sepPad fl.compact ++ renderL fl d v ++ Z)))) := by
    simp [renderEntry, strLit]
  have step : parseVal (f + 1) ('\x7b' :: (g ++ (renderEntry fl d (k, v) ++ Z)))
      = (match skipWs (g ++ (renderEntry fl d (k, v) ++ Z)) with
         | [] => .error ⟨[], "premature end of input"⟩
         | c2 :: r1 =>
             if c2 = '}' then .ok (.obj [], r1)
             else match parseEntries f (c2 :: r1) with
                  | .ok (ms0, r2) => .ok (.obj (intoObj ms0), r2)
                  | .error e2 => .error e2) := rfl
  have hsw : skipWs (g ++ (renderEntry fl d (k, v) ++ Z))
      = renderEntry fl d (k, v) ++ Z := by
    rw [skipWs_wsrun g hg, hcons]
    exact skipWs_cons_of (by decide) _
  rw [step, hsw, hcons]
  simp only [if_neg (by decide : ¬ ('"' = '}'))]

end Janssonex

namespace Janssonex

theorem numStop_rb (t : List Char) : numStop (']' :: t) = true := rfl
theorem numStop_rc (t : List Char) : numStop ('}' :: t) = true := rfl
theorem numStop_cm (t : List Char) : numStop (',' :: t) = true := rfl
theorem numStop_nil : numStop [] = true := rfl

theorem hasKeyB_append (xs ys : List (String × JVal)) (k : String) :
    hasKeyB (xs ++ ys) k = (hasKeyB xs k || hasKeyB ys k) := by
  induction xs with
  | nil => simp [hasKeyB]
  | cons kv xs ih => simp [hasKeyB, ih, Bool.or_assoc]

theorem hasKeyB_none_mem {ms : List (String × JVal)} {k : String}
    (h : hasKeyB ms k = false) : ∀ kv ∈ ms, (k == kv.1) = false := by
  induction ms with
  | nil => intro kv hkv; simp at hkv
  | cons kv0 ms ih =>
      intro kv hkv
      simp only [hasKeyB, Bool.or_eq_false_iff] at h
      rcases List.mem_cons.mp hkv with hkv | hkv
      · subst hkv
        simp only [beq_eq_false_iff_ne, ne_eq] at h ⊢
        exact fun hE => h.1 hE.symm
      · exact ih h.2 kv hkv

theorem foldl_objSet_fresh (ms : List (String × JVal)) : ∀ acc,
    keysFresh ms = true → (∀ kv ∈ ms, hasKeyB acc kv.1 = false) →
    ms.foldl (fun a kv => objSet a kv.1 kv.2) acc = acc ++ ms := by
  induction ms with
  | nil => intro acc _ _; simp
  | cons kv0 ms ih =>
      intro acc hfr hacc
      obtain ⟨k0, v0⟩ := kv0
      simp only [keysFresh, Bool.and_eq_true, Bool.not_eq_eq_eq_not, Bool.not_true] at hfr
      rw [List.foldl_cons]
      have hset : objSet acc k0 v0 = acc ++ [(k0, v0)] :=
        objSet_absent acc k0 v0 (hacc (k0, v0) (by simp))
      rw [hset, ih (acc ++ [(k0, v0)]) hfr.2 ?_]
      · simp
      · intro kv hkv
        rw [hasKeyB_append]
        have h1 : hasKeyB acc kv.1 = false := hacc kv (by simp [hkv])
        have h2 : (k0 == kv.1) = false := hasKeyB_none_mem hfr.1 kv hkv
        simp [hasKeyB, h1, h2]

theorem intoObj_fresh (ms : List (String × JVal)) (h : keysFresh ms = true) :
    intoObj ms = ms := by
  have := foldl_objSet_fresh ms [] h (fun kv _ => rfl)
  simpa [intoObj] using this

end Janssonex

namespace Janssonex

mutual

theorem rt_val : ∀ (j : JVal) (fl : EncFlags) (d : Nat) (fuel : Nat) (rest : List Char),
    wfV j = true → (renderL fl d j).length < fuel → numStop rest = true →
    parseVal fuel (renderL fl d j ++ rest) = .ok (j, rest)
  | .null, fl, d, fuel, rest, _, hf, _ => by
      cases fuel with
      | zero => exact absurd hf (Nat.not_lt_zero _)
      | succ f =>
          show parseVal (f + 1) ('n' :: 'u' :: 'l' :: 'l' :: rest) = .ok (.null, rest)
          simp [parseVal, skipWs, wsChar]
  | .boolean true, fl, d, fuel, rest, _, hf, _ => by
      cases fuel with
      | zero => exact absurd hf (Nat.not_lt_zero _)
      | succ f =>
          show parseVal (f + 1) ('t' :: 'r' :: 'u' :: 'e' :: rest) = .ok (.boolean true, rest)
          simp [parseVal, skipWs, wsChar]
  | .boolean false, fl, d, fuel, rest, _, hf, _ => by
      cases fuel with
      | zero => exact absurd hf (Nat.not_lt_zero _)
      | succ f =>
          show parseVal (f + 1) ('f' :: 'a' :: 'l' :: 's' :: 'e' :: rest)
              = .ok (.boolean false, rest)
          simp [parseVal, skipWs, wsChar]
  | .integer n, fl, d, fuel, rest, _, hf, hr => by
      cases fuel with
      | zero => exact absurd hf (Nat.not_lt_zero _)
      | succ f => exact parseVal_int f n rest hr
  | .real q, fl, d, fuel, rest, _, hf, hr => by
      cases fuel with
      | zero => exact absurd hf (Nat.not_lt_zero _)
      | succ f => exact parseVal_real f q rest hr
  | .str s, fl, d, fuel, rest, _, hf, _ => by
      cases fuel with
      | zero => exact absurd hf (Nat.not_lt_zero _)
      | succ f => exact parseVal_str f s rest
  | .arr [], fl, d, fuel, rest, _, hf, _ => by
      cases fuel with
      | zero => exact absurd hf (Nat.not_lt_zero _)
      | succ f =>
          show parseVal (f + 1) ('[' :: ']' :: rest) = .ok (.arr [], rest)
          simp [parseVal, skipWs, wsChar]
  | .arr (e :: es), fl, d, fuel, rest, hw, hf, _ => by
      cases fuel with
      | zero => exact absurd hf (Nat.not_lt_zero _)
      | succ f =>
          have hw2 : wfV e = true ∧ wfItems es = true := by
            simpa [wfV, wfItems] using hw
          have hlen : (renderL fl d (.arr (e :: es))).length
              = (nlGap fl (d + 1)).length
                + ((renderL fl (d + 1) e ++ renderTail fl (d + 1) es).length
                  + ((nlGap fl d).length + 2)) := by
            simp [renderL]
            omega
          have hfi : (renderL fl (d + 1) e ++ renderTail fl (d + 1) es).length + 1 < f := by
            rw [hlen] at hf
            omega
          have key := rt_items e es fl (d + 1) f (nlGap fl d) rest (nlGap_ws fl d)
            hw2.1 hw2.2 hfi
          have harr : renderL fl d (.arr (e :: es)) ++ rest
              = '[' :: (nlGap fl (d + 1) ++ (renderL fl (d + 1) e
                  ++ (renderTail fl (d + 1) es ++ (nlGap fl d ++ (']' :: rest))))) := by
            simp [renderL]
          rw [harr, parseVal_arr_cons f (nlGap fl (d + 1)) (nlGap_ws fl (d + 1)) fl (d + 1) e _]
          simp [key]
  | .obj [], fl, d, fuel, rest, _, hf, _ => by
      cases fuel with
      | zero => exact absurd hf (Nat.not_lt_zero _)
      | succ f =>
          show parseVal (f + 1) ('\x7b' :: '\x7d' :: rest) = .ok (.obj [], rest)
          simp [parseVal, skipWs, wsChar, intoObj]
  | .obj ((k, v) :: ms), fl, d, fuel, rest, hw, hf, _ => by
      cases fuel with
      | zero => exact absurd hf (Nat.not_lt_zero _)
      | succ f =>
          have hw2 : keysFresh ((k, v) :: ms) = true ∧ wfV v = true ∧ wfEntries ms = true := by
            simpa [wfV, wfEntries, and_assoc] using hw
          have hlen : (renderL fl d (.obj ((k, v) :: ms))).length
              = (nlGap fl (d + 1)).length
                + ((renderEntry fl (d + 1) (k, v) ++ renderETail fl (d + 1) ms).length
                  + ((nlGap fl d).length + 2)) := by
            simp [renderL]
            omega
          have hfi : (renderEntry fl (d + 1) (k, v) ++ renderETail fl (d + 1) ms).length + 1 < f := by
            rw [hlen] at hf
            omega
          have key := rt_entries (k, v) ms fl (d + 1) f (nlGap fl d) rest (nlGap_ws fl d)
            hw2.2.1 hw2.2.2 hfi
          have hobj : renderL fl d (.obj ((k, v) :: ms)) ++ rest
              = '\x7b' :: (nlGap fl (d + 1) ++ (renderEntry fl (d + 1) (k, v)
                  ++ (renderETail fl (d + 1) ms ++ (nlGap fl d ++ ('\x7d' :: rest))))) := by
            simp [renderL]
          rw [hobj, parseVal_obj_cons f (nlGap fl (d + 1)) (nlGap_ws fl (d + 1)) fl (d + 1) (k, v) _]
          simp [key, intoObj_fresh _ hw2.1]
  termination_by j _ _ _ _ _ _ _ => sizeOf j

theorem rt_items : ∀ (e : JVal) (es : List JVal) (fl : EncFlags) (d : Nat) (fuel : Nat)
    (g rest : List Char), (∀ c ∈ g, wsChar c = true) →
    wfV e = true → wfItems es = true →
    (renderL fl d e ++ renderTail fl d es).length + 1 < fuel →
    parseItems fuel (renderL fl d e ++ (renderTail fl d es ++ (g ++ (']' :: rest))))
      = .ok (e :: es, rest)
  | e, [], fl, d, fuel, g, rest, hg, hwe, _, hf => by
      cases fuel with
      | zero => exact absurd hf (Nat.not_lt_zero _)
      | succ f =>
          have hfe : (renderL fl d e).length < f := by
            simp only [List.length_append] at hf
            omega
          have hv := rt_val e fl d f (g ++ (']' :: rest)) hwe hfe
            (numStop_gap g hg ']' rfl rest)
          have hsw : skipWs (g ++ (']' :: rest)) = ']' :: rest := by
            rw [skipWs_wsrun g hg]
            exact skipWs_cons_of (by decide) rest
          have harg : renderL fl d e ++ (renderTail fl d [] ++ (g ++ (']' :: rest)))
              = renderL fl d e ++ (g ++ (']' :: rest)) := by
            simp [renderTail]
          rw [harg]
          simp only [parseItems]
          rw [hv]
          simp [hsw]
  | e, x :: xs, fl, d, fuel, g, rest, hg, hwe, hwx, hf => by
      cases fuel with
      | zero => exact absurd hf (Nat.not_lt_zero _)
      | succ f =>
          have hw2 : wfV x = true ∧ wfItems xs = true := by
            simpa [wfItems] using hwx
          have hltail : (renderTail fl d (x :: xs)).length
              = (itemGap fl d).length
                + ((renderL fl d x).length + ((renderTail fl d xs).length + 1)) := by
            simp [renderTail]
            omega
          have hfe : (renderL fl d e).length < f := by
            simp only [List.length_append] at hf
            omega
          have hfx : (renderL fl d x ++ renderTail fl d xs).length + 1 < f := by
            simp only [List.length_append] at hf ⊢
            rw [hltail] at hf
            omega
          have hv := rt_val e fl d f
            (',' :: (itemGap fl d ++ (renderL fl d x
              ++ (renderTail fl d xs ++ (g ++ (']' :: rest))))))
            hwe hfe (numStop_cm _)
          have key := rt_items x xs fl d f g rest hg hw2.1 hw2.2 hfx
          have harg : renderL fl d e ++ (renderTail fl d (x :: xs) ++ (g ++ (']' :: rest)))
              = renderL fl d e
                  ++ (',' :: (itemGap fl d ++ (renderL fl d x
                    ++ (renderTail fl d xs ++ (g ++ (']' :: rest)))))) := by
            simp [renderTail]
          rw [harg]
          simp only [parseItems]
          rw [hv]
          simp [skipWs, wsChar, parseItems_wsrun f (itemGap fl d) (itemGap_ws fl d), key]
  termination_by e es _ _ _ _ _ _ _ _ _ => sizeOf (e :: es)

theorem rt_entries : ∀ (kv : String × JVal) (ms : List (String × JVal)) (fl : EncFlags)
    (d : Nat) (fuel : Nat) (g rest : List Char), (∀ c ∈ g, wsChar c = true) →
    wfV kv.2 = true → wfEntries ms = true →
    (renderEntry fl d kv ++ renderETail fl d ms).length + 1 < fuel →
    parseEntries fuel (renderEntry fl d kv ++ (renderETail fl d ms ++ (g ++ ('\x7d' :: rest))))
      = .ok (kv :: ms, rest)
  | (k, v), [], fl, d, fuel, g, rest, hg, hwv, _, hf => by
      cases fuel with
      | zero => exact absurd hf (Nat.not_lt_zero _)
      | succ f =>
          have hfe : (renderL fl d v).length < f := by
            simp only [List.length_append, renderEntry, strLit, List.length_cons] at hf
            omega
          have hv := rt_val v fl d f (g ++ ('\x7d' :: rest)) hwv hfe
            (numStop_gap g hg '\x7d' rfl rest)
          have hsw : skipWs (g ++ ('\x7d' :: rest)) = '\x7d' :: rest := by
            rw [skipWs_wsrun g hg]
            exact skipWs_cons_of (by decide) rest
          have hcons : renderEntry fl d (k, v) ++ (renderETail fl d [] ++ (g ++ ('\x7d' :: rest)))
              = '"' :: (k.data.flatMap escChar
                  ++ ('"' :: (':' :: (sepPad fl.compact
                    ++ (renderL fl d v ++ (g ++ ('\x7d' :: rest))))))) := by
            simp [renderEntry, renderETail, strLit]
          rw [hcons]
          simp only [parseEntries]
          simp [skipWs, wsChar, strBody_lit,
            parseVal_wsrun f (sepPad fl.compact) (sepPad_ws fl.compact), hv, hsw]
  | (k, v), (k2, v2) :: ms2, fl, d, fuel, g, rest, hg, hwv, hwm, hf => by
      cases fuel with
      | zero => exact absurd hf (Nat.not_lt_zero _)
      | succ f =>
          have hw2 : wfV v2 = true ∧ wfEntries ms2 = true := by
            simpa [wfEntries] using hwm
          have hfe : (renderL fl d v).length < f := by
            simp only [List.length_append, renderEntry, strLit, List.length_cons] at hf
            omega
          have hetail : (renderETail fl d ((k2, v2) :: ms2)).length
              = (itemGap fl d).length
                + ((renderEntry fl d (k2, v2)).length + ((renderETail fl d ms2).length + 1)) := by
            simp [renderETail]
            omega
          have hfx : (renderEntry fl d (k2, v2) ++ renderETail fl d ms2).length + 1 < f := by
            simp only [List.length_append] at hf ⊢
            rw [hetail] at hf
            omega
          have hv := rt_val v fl d f
            (',' :: (itemGap fl d ++ (renderEntry fl d (k2, v2)
              ++ (renderETail fl d ms2 ++ (g ++ ('\x7d' :: rest))))))
            hwv hfe (numStop_cm _)
          have key := rt_entries (k2, v2) ms2 fl d f g rest hg hw2.1 hw2.2 hfx
          have hcons : renderEntry fl d (k, v)
                ++ (renderETail fl d ((k2, v2) :: ms2) ++ (g ++ ('\x7d' :: rest)))
              = '"' :: (k.data.flatMap escChar
                  ++ ('"' :: (':' :: (sepPad fl.compact ++ (renderL fl d v
                      ++ (',' :: (itemGap fl d
                        ++ (renderEntry fl d (k2, v2)
                          ++ (renderETail fl d ms2 ++ (g ++ ('\x7d' :: rest))))))))))) := by
            simp [renderEntry, renderETail, strLit]
          rw [hcons]
          simp only [parseEntries]
          simp [skipWs, wsChar, strBody_lit,
            parseVal_wsrun f (sepPad fl.compact) (sepPad_ws fl.compact), hv,
            parseEntries_wsrun f (itemGap fl d) (itemGap_ws fl d), key]
  termination_by kv ms _ _ _ _ _ _ _ _ _ => sizeOf (kv :: ms)

end

end Janssonex

namespace Janssonex

theorem parseDoc_render (fl : EncFlags) (v : JVal) (hw : wfV v = true) :
    parseDoc (renderL fl 0 v) = .ok v := by
  have hv := rt_val v fl 0 ((renderL fl 0 v).length + 1) [] hw (by omega) numStop_nil
  rw [List.append_nil] at hv
  simp only [parseDoc]
  rw [hv]
  simp [skipWs]

/-- C4: for every value built through the core's constructors and mutators
(so every object has pairwise-distinct keys), parsing the serialized text —
FromString's decoder applied to ToString's output, under any decoding flags —
yields a tree deep-equal to the original, for every modelled encoding flag
combination that preserves key order (sort-keys off, insertion order kept):
any indentation width, compact or spaced separators. -/
theorem claim4_roundtrip (fl : EncFlags) (dfl : Nat) (v : JVal)
    (hw : wfV v = true)
    (hord : fl.sortKeys = false ∧ fl.preserveOrder = true) :
    json_loads (json_dumps fl v) dfl = .ok v := by
  have hd : json_dumps fl v = String.mk (renderL fl 0 v) := by
    simp [json_dumps, hord.1]
  have hdata : (String.mk (renderL fl 0 v)).data = renderL fl 0 v := rfl
  rw [hd]
  simp only [json_loads, hdata]
  rw [parseDoc_render fl v hw]

/-- C4 witness: a two-key object with a nested array survives the round trip
both in spaced single-line mode and pretty-printed at indent width 4. -/
theorem claim4_witness :
    json_loads (json_dumps ⟨0, false, false, true⟩
        (.obj [("a", .integer 1), ("b", .arr [.null, .str "x"])])) 0
      = .ok (.obj [("a", .integer 1), ("b", .arr [.null, .str "x"])]) ∧
    json_loads (json_dumps ⟨4, false, false, true⟩
        (.obj [("a", .integer 1), ("b", .arr [.null, .str "x"])])) 0
      = .ok (.obj [("a", .integer 1), ("b", .arr [.null, .str "x"])]) :=
  ⟨claim4_roundtrip ⟨0, false, false, true⟩ 0
      (.obj [("a", .integer 1), ("b", .arr [.null, .str "x"])]) rfl ⟨rfl, rfl⟩,
   claim4_roundtrip ⟨4, false, false, true⟩ 0
      (.obj [("a", .integer 1), ("b", .arr [.null, .str "x"])]) rfl ⟨rfl, rfl⟩⟩

end Janssonex
